import Mathlib

/-!
# Verification of the tic-tac-toe engines

A shallow embedding of the `tic-tac-toe` Rust crate (normal and ultimate
variants) together with proofs about its win detection, move validation,
minimax evaluation and MCTS move-generation front end.

Boards are 3x3 grids of optional cell shapes, indexed as `cells[x][y]`
(`x` is the column, `y` the row), exactly as in the source.  Machine
integers (`usize`, `i8`) are modelled as `Nat`/`Int`; the `i8` cast of the
`f32` decay in `evaluate_position` is modelled bit-exactly (round to
nearest even at 24 bits of precision, then truncation toward zero with
saturation).  Fallible operations return an explicit result value, and
`&mut self` methods are modelled by state passing.
-/

/-- `CellShape` from `src/shared/board.rs` (identical to the copy in `src/board.rs`). -/
inductive CellShape where
  | X : CellShape
  | O : CellShape
deriving DecidableEq, Repr

namespace CellShape

/-- `CellShape::other`: the opposite of the current shape. -/
def other : CellShape → CellShape
  | X => O
  | O => X

@[simp] theorem other_X : other X = O := rfl
@[simp] theorem other_O : other O = X := rfl

@[simp] theorem other_other (s : CellShape) : s.other.other = s := by
  cases s <;> rfl

theorem eq_or_eq_other (s t : CellShape) : t = s ∨ t = s.other := by
  cases s <;> cases t <;> simp [other]

@[simp] theorem other_ne (s : CellShape) : s.other ≠ s := by cases s <;> simp [other]

end CellShape

/-- `WinnerError` from `src/shared/board.rs`. -/
inductive WinnerError where
  | NoWinnerYet : WinnerError
  | BoardFullNoWinner : WinnerError
  | MultipleWinners : WinnerError
deriving DecidableEq, Repr

/-- Rust's `Result<T, E>`, used by the `get_winner` and `make_move` functions. -/
inductive RRes (ε : Type) (α : Type) where
  | err : ε → RRes ε α
  | ok : α → RRes ε α
deriving DecidableEq, Repr

/-- A `(usize, usize)` cell coordinate. -/
abbrev Coord := Nat × Nat

/-- A `[(usize, usize); 3]` winning line, as a triple of coordinates. -/
abbrev Line := Coord × Coord × Coord

/-- The `[[Option<CellShape>; 3]; 3]` cell grid, as a total function on in-bounds indices. -/
abbrev Grid := Fin 3 → Fin 3 → Option CellShape

namespace Shared

/-- `cells[coord.0][coord.1]` (the `get_cell` closure in `get_winner`).  The Rust
indexing panics out of bounds; every use in the source is at literal in-bounds
coordinates, where the `none` fallback is never taken. -/
def get_cell (cells : Grid) (c : Coord) : Option CellShape :=
  if h : c.1 < 3 ∧ c.2 < 3 then cells ⟨c.1, h.1⟩ ⟨c.2, h.2⟩ else none

/-- The cells in the order produced by `cells.iter().flatten()` (column-major,
matching the `cells[x][y]` layout). -/
def cellsList (cells : Grid) : List (Option CellShape) :=
  [cells 0 0, cells 0 1, cells 0 2,
   cells 1 0, cells 1 1, cells 1 2,
   cells 2 0, cells 2 1, cells 2 2]

/-- `shared::is_board_full`: the board is full when all nine cells are occupied. -/
def is_board_full (cells : Grid) : Prop :=
  ((cellsList cells).countP (fun c => c.isSome)) = 9

instance (cells : Grid) : Decidable (is_board_full cells) := by
  unfold is_board_full; infer_instance

/-- The eight canonical triplet coordinate lists from `get_winner`, in source order:
three columns, three rows, then the two diagonals. -/
def tripletCoords : List Line :=
  [((0, 0), (0, 1), (0, 2)),
   ((1, 0), (1, 1), (1, 2)),
   ((2, 0), (2, 1), (2, 2)),
   ((0, 0), (1, 0), (2, 0)),
   ((0, 1), (1, 1), (2, 1)),
   ((0, 2), (1, 2), (2, 2)),
   ((0, 2), (1, 1), (2, 0)),
   ((0, 0), (1, 1), (2, 2))]

/-- `get_triplet`: pair the shapes at the three coordinates with the coordinates. -/
def get_triplet (cells : Grid) (l : Line) :
    (Option CellShape × Option CellShape × Option CellShape) × Line :=
  ((get_cell cells l.1, get_cell cells l.2.1, get_cell cells l.2.2), l)

/-- The `filter_map` closure of `get_winner`: a triplet maps to its winning shape
(together with its coordinates) when all three cells hold the same shape. -/
def winOf : (Option CellShape × Option CellShape × Option CellShape) × Line →
    Option (CellShape × Line)
  | ((some CellShape.X, some CellShape.X, some CellShape.X), l) => some (CellShape.X, l)
  | ((some CellShape.O, some CellShape.O, some CellShape.O), l) => some (CellShape.O, l)
  | _ => none

/-- The winning states of a grid before deduplication: the triplets, in source
order, that are complete for one shape. -/
def winStates (cells : Grid) : List (CellShape × Line) :=
  (tripletCoords.map (get_triplet cells)).filterMap winOf

/-- Itertools' `unique_by` keyed on the winning shape: keep an element when its
shape has not been seen yet. -/
def uniqueBy (seen : List CellShape) : List (CellShape × Line) → List (CellShape × Line)
  | [] => []
  | p :: rest =>
    if p.1 ∈ seen then uniqueBy seen rest
    else p :: uniqueBy (p.1 :: seen) rest

/-- `shared::get_winner` from `src/shared/board.rs`: winning triplets are
deduplicated by shape (`unique_by`) before checking for multiple winners. -/
def get_winner (cells : Grid) : RRes WinnerError (CellShape × Line) :=
  let states := uniqueBy [] (winStates cells)
  if states.length > 1 then .err .MultipleWinners
  else
    match states.head? with
    | none => if is_board_full cells then .err .BoardFullNoWinner else .err .NoWinnerYet
    | some x => .ok x

/-- `line` is a complete line for shape `s` on `cells`. -/
def LineWin (cells : Grid) (l : Line) (s : CellShape) : Prop :=
  get_cell cells l.1 = some s ∧ get_cell cells l.2.1 = some s ∧ get_cell cells l.2.2 = some s

instance (cells : Grid) (l : Line) (s : CellShape) : Decidable (LineWin cells l s) := by
  unfold LineWin; infer_instance

/-- Shape `s` has a complete triple among the eight canonical lines. -/
def HasTriple (cells : Grid) (s : CellShape) : Prop :=
  ∃ l ∈ tripletCoords, LineWin cells l s

instance (cells : Grid) (s : CellShape) : Decidable (HasTriple cells s) := by
  unfold HasTriple; infer_instance

end Shared

namespace NormalBoard

/-- `Board` from `src/board.rs` (the normal game). -/
structure Board where
  cells : Grid
  ai_shape : CellShape

/-- `Board::get_winner` from `src/board.rs`: identical to `shared::get_winner`
except that the winning states are *not* deduplicated by shape. -/
def get_winner (b : Board) : RRes WinnerError (CellShape × Line) :=
  let states := Shared.winStates b.cells
  if states.length > 1 then .err .MultipleWinners
  else
    match states.head? with
    | none => if Shared.is_board_full b.cells then .err .BoardFullNoWinner else .err .NoWinnerYet
    | some x => .ok x

/-- The coordinates scanned by `empty_cells`, columns before rows. -/
def allCoords : List Coord :=
  [(0, 0), (0, 1), (0, 2), (1, 0), (1, 1), (1, 2), (2, 0), (2, 1), (2, 2)]

/-- `Board::empty_cells`: the coordinates of empty cells, columns before rows. -/
def empty_cells (b : Board) : List Coord :=
  allCoords.filter (fun c => (Shared.get_cell b.cells c).isNone)

end NormalBoard

namespace Decay

/-- Round `n / d` to nearest, ties to even (the IEEE-754 rounding used by `f32`
multiplication).  Only called with `d` a power of two. -/
def rneDiv (n d : Nat) : Nat :=
  let q := n / d
  let r := n % d
  if 2 * r < d then q
  else if d < 2 * r then q + 1
  else if q % 2 = 0 then q else q + 1

/-- `⌊log₂ n⌋` computed by fueled structural recursion (so that the kernel can
evaluate it); the fuel 64 covers every number below `2^64`. -/
def log2F : Nat → Nat → Nat
  | 0, _ => 0
  | fuel + 1, n => if n < 2 then 0 else log2F fuel (n / 2) + 1

/-- Bit-exact model of `(0.9 * c as f32) as i8` from `Board::evaluate_position`
for `c : i8`.  The literal `0.9f32` is `15099494 / 2^24`; an `i8` converts to
`f32` exactly; the product is rounded to nearest-even at 24 significant bits
(the result stays in `[-115, 115]`, so there is no overflow and no subnormal);
the `as i8` cast truncates toward zero and saturates at `[-128, 127]`. -/
def decayF32 (c : Int) : Int :=
  let n : Nat := 15099494 * c.natAbs
  let t : Nat :=
    if n < 2 ^ 24 then n / 2 ^ 24
    else
      let shift := log2F 64 n - 23
      rneDiv n (2 ^ shift) * 2 ^ shift / 2 ^ 24
  let v : Int := if c < 0 then -(t : Int) else (t : Int)
  max (-128) (min 127 v)

set_option maxRecDepth 4000 in
theorem decayF32_truncation_aux :
    ∀ n ∈ Finset.range 201,
      decayF32 ((n : Int) - 100) = Int.tdiv (9 * ((n : Int) - 100)) 10 ∧
      -90 ≤ decayF32 ((n : Int) - 100) ∧ decayF32 ((n : Int) - 100) ≤ 90 := by
  decide

/-- On every score reachable by the engine (the scores all lie in `[-100, 100]`),
the `f32` decay computes exactly `0.9 × c` truncated toward zero, and the result
lies in `[-90, 90]`. -/
theorem decayF32_eq_truncation (c : Int) (h1 : -100 ≤ c) (h2 : c ≤ 100) :
    decayF32 c = Int.tdiv (9 * c) 10 ∧ -90 ≤ decayF32 c ∧ decayF32 c ≤ 90 := by
  have h := decayF32_truncation_aux (c + 100).toNat
    (by rw [Finset.mem_range]; omega)
  have hc : ((c + 100).toNat : Int) - 100 = c := by omega
  rwa [hc] at h

end Decay

namespace NormalBoard

/-- `new_board.cells[x][y] = Some(shape_to_play)`: functional update of one cell.
(Rust would panic on an out-of-bounds index; all uses are at coordinates drawn
from `empty_cells`, which are in bounds.) -/
def setCell (cells : Grid) (c : Coord) (s : CellShape) : Grid :=
  fun i j => if i.val = c.1 ∧ j.val = c.2 then some s else cells i j

/-- Rust's `Iterator::max` on a list of scores. -/
def listMax : List Int → Option Int
  | [] => none
  | x :: xs => some (xs.foldl max x)

/-- Rust's `Iterator::min` on a list of scores. -/
def listMin : List Int → Option Int
  | [] => none
  | x :: xs => some (xs.foldl min x)

/-- `Board::evaluate_position`, with explicit fuel for termination.  The fuel
strictly dominates the number of empty cells at every call (each recursive call
fills one cell), so the fuel-exhausted branch is never taken; `evaluate_position`
below supplies fuel `10 > 9 ≥ #empty cells`.  The `.expect("We should never
iterate over zero empty cells")` panics are modelled by the `getD 0` default,
shown unreachable in `C7_no_winner_yet_nonempty`; the `Ok(_) => unreachable!()`
arm is the final `0`, dead because every winner is `ai_shape` or its other. -/
def evalFuel : Nat → Board → CellShape → Int
  | 0, _, _ => 0
  | fuel + 1, b, shape_to_play =>
    match get_winner b with
    | .ok (x, _) =>
      if x = b.ai_shape then 100
      else if x = b.ai_shape.other then -100
      else 0
    | .err .MultipleWinners => 0
    | .err .BoardFullNoWinner => 0
    | .err .NoWinnerYet =>
      let scores := (empty_cells b).map fun c =>
        Decay.decayF32
          (evalFuel fuel ⟨setCell b.cells c shape_to_play, b.ai_shape⟩ shape_to_play.other)
      if shape_to_play = b.ai_shape then (listMax scores).getD 0
      else (listMin scores).getD 0

/-- `Board::evaluate_position` from `src/board.rs`. -/
def evaluate_position (b : Board) (shape_to_play : CellShape) : Int :=
  evalFuel 10 b shape_to_play

end NormalBoard

/-- A `GlobalCoord`: local board coordinates, then the cell within that board. -/
abbrev GlobalCoord := Nat × Nat × (Nat × Nat)

namespace Ultimate

/-- `MoveError` from `src/ultimate/board.rs`. -/
inductive MoveError where
  | WrongLocalBoard : MoveError
  | CellAlreadyFull : MoveError
  | OutOfBounds : MoveError
deriving DecidableEq, Repr

/-- `LocalBoard` from `src/ultimate/board.rs`: a cell grid plus the private
winner cache. -/
structure LocalBoard where
  cells : Grid
  winner : Option (CellShape × Line)

/-- `LocalBoard::new`: empty cells, no cached winner. -/
def LocalBoard.new : LocalBoard :=
  { cells := fun _ _ => none, winner := none }

/-- `LocalBoard::get_winner` (a `&mut self` method, modelled by returning the
updated board): compute `shared::get_winner` on the cells and cache the first
`Ok` result; errors are propagated by `?` without touching the cache. -/
def LocalBoard.get_winner (lb : LocalBoard) :
    RRes WinnerError (CellShape × Line) × LocalBoard :=
  match lb.winner with
  | none =>
    match Shared.get_winner lb.cells with
    | .ok w => (.ok w, { lb with winner := some w })
    | .err e => (.err e, lb)
  | some w => (.ok w, lb)

/-- `GlobalBoard` from `src/ultimate/board.rs`. -/
structure GlobalBoard where
  local_boards : Fin 3 → Fin 3 → LocalBoard
  ai_shape : CellShape
  next_local_board : Option Coord

/-- `GlobalBoard::new`: a grid of empty local boards, no forced local board. -/
def GlobalBoard.new (ai_shape : CellShape) : GlobalBoard :=
  { local_boards := fun _ _ => LocalBoard.new, ai_shape := ai_shape,
    next_local_board := none }

/-- The `if let Some(coord) = self.next_local_board { if coord != (x, y) ... }`
test of `make_move`. -/
def wrongBoard (next : Option Coord) (x y : Nat) : Bool :=
  match next with
  | some c => decide (c ≠ (x, y))
  | none => false

/-- The successful tail of `GlobalBoard::make_move`: write the mark at cell
`(flx, fly)` of local board `(fx, fy)`, then point `next_local_board` at
`(flx, fly)` unless that local board is full (the fullness check runs after the
mark is written, as in the source). -/
def movedBoard (gb : GlobalBoard) (fx fy flx fly : Fin 3) (shape : CellShape) :
    GlobalBoard :=
  let lb := gb.local_boards fx fy
  let lb' : LocalBoard :=
    { lb with cells := fun i j => if i = flx ∧ j = fly then some shape else lb.cells i j }
  let boards' : Fin 3 → Fin 3 → LocalBoard :=
    fun i j => if i = fx ∧ j = fy then lb' else gb.local_boards i j
  { local_boards := boards', ai_shape := gb.ai_shape,
    next_local_board :=
      if Shared.is_board_full (boards' flx fly).cells then none
      else some (flx.val, fly.val) }

/-- `GlobalBoard::make_move` (a `&mut self` method, modelled by state passing:
the second component is the board after the call).  Checks, in order:
out-of-bounds indices, the forced local board, cell occupancy; on success the
mutation is `movedBoard` above. -/
def make_move (gb : GlobalBoard) (coord : GlobalCoord) (shape : CellShape) :
    RRes MoveError Unit × GlobalBoard :=
  match coord with
  | (x, y, (lx, ly)) =>
    if h : 2 < x ∨ 2 < y ∨ 2 < lx ∨ 2 < ly then (.err .OutOfBounds, gb)
    else if wrongBoard gb.next_local_board x y then (.err .WrongLocalBoard, gb)
    else
      let fx : Fin 3 := ⟨x, by omega⟩
      let fy : Fin 3 := ⟨y, by omega⟩
      let flx : Fin 3 := ⟨lx, by omega⟩
      let fly : Fin 3 := ⟨ly, by omega⟩
      match (gb.local_boards fx fy).cells flx fly with
      | some _ => (.err .CellAlreadyFull, gb)
      | none => (.ok (), movedBoard gb fx fy flx fly shape)

/-- `GlobalBoard::get_winner`: apply `shared::get_winner` to the grid of local
winners (each local winner is computed on a copy of the local board, as the
source's `map` does, so the caches in `self` are untouched), and clear
`next_local_board` when the result is `Ok`. -/
def GlobalBoard.get_winner (gb : GlobalBoard) :
    RRes WinnerError (CellShape × Line) × GlobalBoard :=
  let cells : Grid := fun x y =>
    match (gb.local_boards x y).get_winner with
    | (.ok (shape, _), _) => some shape
    | (.err _, _) => none
  match Shared.get_winner cells with
  | .ok w => (.ok w, { gb with next_local_board := none })
  | .err e => (.err e, gb)

/-- The `ALL_CELLS` constant from `src/ultimate/board/mcts.rs`. -/
def ALL_CELLS : List GlobalCoord :=
  [(0, 0, (0, 0)), (0, 0, (1, 0)), (0, 0, (2, 0)),
   (0, 0, (0, 1)), (0, 0, (1, 1)), (0, 0, (2, 1)),
   (0, 0, (0, 2)), (0, 0, (1, 2)), (0, 0, (2, 2)),
   (1, 0, (0, 0)), (1, 0, (1, 0)), (1, 0, (2, 0)),
   (1, 0, (0, 1)), (1, 0, (1, 1)), (1, 0, (2, 1)),
   (1, 0, (0, 2)), (1, 0, (1, 2)), (1, 0, (2, 2)),
   (2, 0, (0, 0)), (2, 0, (1, 0)), (2, 0, (2, 0)),
   (2, 0, (0, 1)), (2, 0, (1, 1)), (2, 0, (2, 1)),
   (2, 0, (0, 2)), (2, 0, (1, 2)), (2, 0, (2, 2)),
   (0, 1, (0, 0)), (0, 1, (1, 0)), (0, 1, (2, 0)),
   (0, 1, (0, 1)), (0, 1, (1, 1)), (0, 1, (2, 1)),
   (0, 1, (0, 2)), (0, 1, (1, 2)), (0, 1, (2, 2)),
   (1, 1, (0, 0)), (1, 1, (1, 0)), (1, 1, (2, 0)),
   (1, 1, (0, 1)), (1, 1, (1, 1)), (1, 1, (2, 1)),
   (1, 1, (0, 2)), (1, 1, (1, 2)), (1, 1, (2, 2)),
   (2, 1, (0, 0)), (2, 1, (1, 0)), (2, 1, (2, 0)),
   (2, 1, (0, 1)), (2, 1, (1, 1)), (2, 1, (2, 1)),
   (2, 1, (0, 2)), (2, 1, (1, 2)), (2, 1, (2, 2)),
   (0, 2, (0, 0)), (0, 2, (1, 0)), (0, 2, (2, 0)),
   (0, 2, (0, 1)), (0, 2, (1, 1)), (0, 2, (2, 1)),
   (0, 2, (0, 2)), (0, 2, (1, 2)), (0, 2, (2, 2)),
   (1, 2, (0, 0)), (1, 2, (1, 0)), (1, 2, (2, 0)),
   (1, 2, (0, 1)), (1, 2, (1, 1)), (1, 2, (2, 1)),
   (1, 2, (0, 2)), (1, 2, (1, 2)), (1, 2, (2, 2)),
   (2, 2, (0, 0)), (2, 2, (1, 0)), (2, 2, (2, 0)),
   (2, 2, (0, 1)), (2, 2, (1, 1)), (2, 2, (2, 1)),
   (2, 2, (0, 2)), (2, 2, (1, 2)), (2, 2, (2, 2))]

/-- The nine cells of the forced local board, in the order listed in
`legal_moves`. -/
def nineCells (x y : Nat) : List GlobalCoord :=
  [(x, y, (0, 0)), (x, y, (1, 0)), (x, y, (2, 0)),
   (x, y, (0, 1)), (x, y, (1, 1)), (x, y, (2, 1)),
   (x, y, (0, 2)), (x, y, (1, 2)), (x, y, (2, 2))]

/-- `self.local_boards[x][y].cells[lx][ly]` (the lookup in `legal_moves`'
filter).  The Rust indexing panics out of bounds; that can only happen when
`next_local_board` is itself out of bounds, which no reachable board exhibits
(`make_move` bound-checks the cell coordinates it stores there). -/
def gcell (gb : GlobalBoard) (c : GlobalCoord) : Option CellShape :=
  if h : c.1 < 3 ∧ c.2.1 < 3 ∧ c.2.2.1 < 3 ∧ c.2.2.2 < 3 then
    (gb.local_boards ⟨c.1, h.1⟩ ⟨c.2.1, h.2.1⟩).cells ⟨c.2.2.1, h.2.2.1⟩ ⟨c.2.2.2, h.2.2.2⟩
  else none

/-- `GlobalBoard::legal_moves`: all cells (or the nine cells of the forced
local board), filtered down to the empty ones. -/
def legal_moves (gb : GlobalBoard) : List GlobalCoord :=
  (match gb.next_local_board with
   | none => ALL_CELLS
   | some (x, y) => nineCells x y).filter (fun c => (gcell gb c).isNone)

/-- The immediate-win test from the first loop of `generate_ai_move`: simulate
the move on a clone and check whether the global winner is the AI shape.  The
`.expect("A legal move should never result in a `MoveError`")` panic is
modelled as `false`; `C8_make_move_ok_iff_legal` shows it is unreachable for
moves drawn from `legal_moves`. -/
def wins_after (gb : GlobalBoard) (mv : GlobalCoord) : Bool :=
  match make_move gb mv gb.ai_shape with
  | (.ok _, board) =>
    match board.get_winner.1 with
    | .ok (shape, _) => decide (shape = gb.ai_shape)
    | .err _ => false
  | (.err _, _) => false

/-- `GlobalBoard::generate_ai_move` from `src/ultimate/board/mcts.rs`.  The
first loop plays the first legal move that wins immediately; only when no such
move exists does it fall back to `do_mcts(max_iterations)`.  The MCTS search is
randomized (it draws from `thread_rng`), so its outcome is abstracted here as
the `mcts_result` argument; the fast path never consults it. -/
def generate_ai_move (gb : GlobalBoard) (mcts_result : Option GlobalCoord) :
    Option GlobalCoord :=
  match (legal_moves gb).find? (wins_after gb) with
  | some mv => some mv
  | none => mcts_result

/-- The boards reachable from `GlobalBoard::new` by successful `make_move`
calls and by `get_winner` queries (which mutate `next_local_board`). -/
inductive Reachable : GlobalBoard → Prop where
  | new : ∀ s, Reachable (GlobalBoard.new s)
  | move : ∀ {gb} (c : GlobalCoord) (s : CellShape), Reachable gb →
      (make_move gb c s).1 = .ok () → Reachable (make_move gb c s).2
  | winner : ∀ {gb}, Reachable gb → Reachable gb.get_winner.2

/-- Total accessor for `local_boards[a][b]` at `usize` coordinates, for stating
properties; all uses are at indices proved in bounds. -/
def localAtN (gb : GlobalBoard) (a b : Nat) : LocalBoard :=
  if h : a < 3 ∧ b < 3 then gb.local_boards ⟨a, h.1⟩ ⟨b, h.2⟩ else LocalBoard.new

end Ultimate

namespace AppDelay

/-- The minimum hold-back of the normal engine:
`Duration::from_millis(200)`, in nanoseconds. -/
def normalDelay : Nat := 200000000

/-- The minimum hold-back of the ultimate engine:
`Duration::from_millis(750)`, in nanoseconds. -/
def ultimateDelay : Nat := 750000000

/-- The sleep time computed by the normal `send_move_after_delay`
(`src/normal/app/mod.rs`): `Duration::from_millis(200) - start.elapsed()`.
Rust's plain `Duration` subtraction panics on overflow ("overflow when
subtracting durations"), modelled as `none`; the worker thread then dies
without sending the move. -/
def normal_remaining (elapsed_ns : Nat) : Option Nat :=
  if elapsed_ns ≤ normalDelay then some (normalDelay - elapsed_ns) else none

/-- The sleep time computed by the ultimate `send_move_when_ready`
(`src/ultimate/app/mod.rs`):
`Duration::saturating_sub(Duration::from_millis(750), start.elapsed())`,
which is floored at zero. -/
def ultimate_remaining (elapsed_ns : Nat) : Nat :=
  ultimateDelay - elapsed_ns

end AppDelay

namespace Shared

theorem winOf_get_triplet (cells : Grid) (l : Line) (s : CellShape) (c : Line) :
    winOf (get_triplet cells l) = some (s, c) ↔ c = l ∧ LineWin cells l s := by
  simp only [get_triplet]
  rcases h1 : get_cell cells l.1 with _ | (_ | _) <;>
    rcases h2 : get_cell cells l.2.1 with _ | (_ | _) <;>
      rcases h3 : get_cell cells l.2.2 with _ | (_ | _) <;>
        cases s <;> simp_all [winOf, LineWin] <;> tauto

theorem mem_winStates (cells : Grid) (s : CellShape) (c : Line) :
    (s, c) ∈ winStates cells ↔ c ∈ tripletCoords ∧ LineWin cells c s := by
  unfold winStates
  rw [List.mem_filterMap]
  constructor
  · rintro ⟨t, ht, hw⟩
    rw [List.mem_map] at ht
    obtain ⟨l, hl, rfl⟩ := ht
    rw [winOf_get_triplet] at hw
    obtain ⟨rfl, hwin⟩ := hw
    exact ⟨hl, hwin⟩
  · rintro ⟨hc, hwin⟩
    exact ⟨get_triplet cells c, List.mem_map_of_mem _ hc,
      (winOf_get_triplet cells c s c).mpr ⟨rfl, hwin⟩⟩

theorem hasTriple_iff_winStates (cells : Grid) (s : CellShape) :
    HasTriple cells s ↔ ∃ c, (s, c) ∈ winStates cells := by
  unfold HasTriple
  constructor
  · rintro ⟨l, hl, hw⟩
    exact ⟨l, (mem_winStates cells s l).mpr ⟨hl, hw⟩⟩
  · rintro ⟨c, hc⟩
    rw [mem_winStates] at hc
    exact ⟨c, hc.1, hc.2⟩

theorem mem_uniqueBy_key (s : CellShape) :
    ∀ (l : List (CellShape × Line)) (seen : List CellShape),
      (∃ c, (s, c) ∈ uniqueBy seen l) ↔ s ∉ seen ∧ ∃ c, (s, c) ∈ l := by
  intro l
  induction l with
  | nil => intro seen; simp [uniqueBy]
  | cons p rest ih =>
    obtain ⟨p1, p2⟩ := p
    intro seen
    by_cases hp : p1 ∈ seen
    · rw [show uniqueBy seen ((p1, p2) :: rest) = uniqueBy seen rest by
        simp [uniqueBy, hp]]
      rw [ih]
      constructor
      · rintro ⟨hns, c, hc⟩
        exact ⟨hns, c, List.mem_cons_of_mem _ hc⟩
      · rintro ⟨hns, c, hc⟩
        refine ⟨hns, ?_⟩
        rcases List.mem_cons.mp hc with heq | hm
        · exfalso
          have : s = p1 := (Prod.mk.injEq .. ▸ heq).1
          exact hns (this ▸ hp)
        · exact ⟨c, hm⟩
    · rw [show uniqueBy seen ((p1, p2) :: rest) = (p1, p2) :: uniqueBy (p1 :: seen) rest by
        simp [uniqueBy, hp]]
      by_cases hs : s = p1
      · subst hs
        constructor
        · intro _
          exact ⟨hp, p2, List.mem_cons_self _ _⟩
        · intro _
          exact ⟨p2, List.mem_cons_self _ _⟩
      · constructor
        · rintro ⟨c, hc⟩
          rcases List.mem_cons.mp hc with heq | hm
          · exact absurd ((Prod.mk.injEq .. ▸ heq).1) hs
          · have := (ih (p1 :: seen)).mp ⟨c, hm⟩
            obtain ⟨hns, c', hc'⟩ := this
            exact ⟨fun h => hns (List.mem_cons_of_mem _ h), c', List.mem_cons_of_mem _ hc'⟩
        · rintro ⟨hns, c, hc⟩
          rcases List.mem_cons.mp hc with heq | hm
          · exact absurd ((Prod.mk.injEq .. ▸ heq).1) hs
          · have := (ih (p1 :: seen)).mpr
              ⟨by simp [hs, hns], c, hm⟩
            obtain ⟨c', hc'⟩ := this
            exact ⟨c', List.mem_cons_of_mem _ hc'⟩

theorem uniqueBy_subset :
    ∀ (l : List (CellShape × Line)) (seen : List CellShape) (p : CellShape × Line),
      p ∈ uniqueBy seen l → p ∈ l := by
  intro l
  induction l with
  | nil => intro seen p h; simp [uniqueBy] at h
  | cons q rest ih =>
    intro seen p h
    by_cases hq : q.1 ∈ seen
    · rw [show uniqueBy seen (q :: rest) = uniqueBy seen rest by
        simp [uniqueBy, hq]] at h
      exact List.mem_cons_of_mem _ (ih seen p h)
    · rw [show uniqueBy seen (q :: rest) = q :: uniqueBy (q.1 :: seen) rest by
        simp [uniqueBy, hq]] at h
      rcases List.mem_cons.mp h with heq | hm
      · exact heq ▸ List.mem_cons_self _ _
      · exact List.mem_cons_of_mem _ (ih _ p hm)

theorem uniqueBy_two :
    ∀ (l : List (CellShape × Line)) (seen : List CellShape),
      2 ≤ (uniqueBy seen l).length →
      (∃ c, (CellShape.X, c) ∈ l) ∧ (∃ c, (CellShape.O, c) ∈ l) := by
  intro l
  induction l with
  | nil => intro seen h; simp [uniqueBy] at h
  | cons p rest ih =>
    obtain ⟨p1, p2⟩ := p
    intro seen h
    by_cases hp : p1 ∈ seen
    · rw [show uniqueBy seen ((p1, p2) :: rest) = uniqueBy seen rest by
        simp [uniqueBy, hp]] at h
      obtain ⟨⟨c1, h1⟩, ⟨c2, h2⟩⟩ := ih seen h
      exact ⟨⟨c1, List.mem_cons_of_mem _ h1⟩, ⟨c2, List.mem_cons_of_mem _ h2⟩⟩
    · rw [show uniqueBy seen ((p1, p2) :: rest) = (p1, p2) :: uniqueBy (p1 :: seen) rest by
        simp [uniqueBy, hp]] at h
      have htail : uniqueBy (p1 :: seen) rest ≠ [] := by
        intro hnil
        rw [hnil] at h
        simp at h
      obtain ⟨q, hq⟩ := List.exists_mem_of_ne_nil _ htail
      have hkey := (mem_uniqueBy_key q.1 rest (p1 :: seen)).mp ⟨q.2, by rwa [Prod.mk.eta]⟩
      obtain ⟨hns, c', hc'⟩ := hkey
      have hne : q.1 ≠ p1 := fun hEq => hns (hEq ▸ List.mem_cons_self _ _)
      cases h1 : p1 <;> cases h2 : q.1
      · exact absurd (h2 ▸ h1 ▸ rfl) hne
      · exact ⟨⟨p2, h1 ▸ List.mem_cons_self _ _⟩,
          ⟨c', List.mem_cons_of_mem _ (h2 ▸ hc')⟩⟩
      · exact ⟨⟨c', List.mem_cons_of_mem _ (h2 ▸ hc')⟩,
          ⟨p2, h1 ▸ List.mem_cons_self _ _⟩⟩
      · exact absurd (h2 ▸ h1 ▸ rfl) hne

theorem two_le_length_of_both {L : List (CellShape × Line)} {c1 c2 : Line}
    (h1 : (CellShape.X, c1) ∈ L) (h2 : (CellShape.O, c2) ∈ L) : 2 ≤ L.length := by
  match L with
  | [] => simp at h1
  | [a] =>
    simp only [List.mem_singleton] at h1 h2
    have : (CellShape.X : CellShape) = CellShape.O := by
      have h := h1.trans h2.symm
      exact (Prod.mk.injEq .. ▸ h).1
    simp at this
  | a :: b :: t => simp [List.length]

end Shared

namespace Shared

theorem get_winner_multiple_iff (cells : Grid) :
    get_winner cells = .err .MultipleWinners ↔
      HasTriple cells CellShape.X ∧ HasTriple cells CellShape.O := by
  unfold get_winner
  by_cases h : 1 < (uniqueBy [] (winStates cells)).length
  · rw [if_pos h]
    obtain ⟨⟨c1, h1⟩, ⟨c2, h2⟩⟩ := uniqueBy_two (winStates cells) [] (by omega)
    exact iff_of_true rfl
      ⟨(hasTriple_iff_winStates cells CellShape.X).mpr ⟨c1, h1⟩,
       (hasTriple_iff_winStates cells CellShape.O).mpr ⟨c2, h2⟩⟩
  · rw [if_neg h]
    constructor
    · intro hc
      cases hL : (uniqueBy [] (winStates cells)).head? with
      | none =>
        rw [hL] at hc
        by_cases hf : is_board_full cells
        · rw [if_pos hf] at hc; simp at hc
        · rw [if_neg hf] at hc; simp at hc
      | some p => rw [hL] at hc; simp at hc
    · rintro ⟨hX, hO⟩
      obtain ⟨c1, h1⟩ := (hasTriple_iff_winStates cells CellShape.X).mp hX
      obtain ⟨c2, h2⟩ := (hasTriple_iff_winStates cells CellShape.O).mp hO
      obtain ⟨c1', h1'⟩ := (mem_uniqueBy_key CellShape.X (winStates cells) []).mpr
        ⟨by simp, c1, h1⟩
      obtain ⟨c2', h2'⟩ := (mem_uniqueBy_key CellShape.O (winStates cells) []).mpr
        ⟨by simp, c2, h2⟩
      exact absurd (two_le_length_of_both h1' h2') (by omega)

theorem get_winner_single (cells : Grid) (s : CellShape)
    (hs : HasTriple cells s) (ho : ¬ HasTriple cells s.other) :
    ∃ l, get_winner cells = .ok (s, l) ∧ l ∈ tripletCoords ∧ LineWin cells l s := by
  unfold get_winner
  obtain ⟨c, hc⟩ := (hasTriple_iff_winStates cells s).mp hs
  obtain ⟨c0, hc0⟩ := (mem_uniqueBy_key s (winStates cells) []).mpr ⟨by simp, c, hc⟩
  have hlen : ¬ 1 < (uniqueBy [] (winStates cells)).length := by
    intro h
    obtain ⟨⟨cx, hx⟩, ⟨co, hoo⟩⟩ := uniqueBy_two (winStates cells) [] (by omega)
    cases s
    · exact ho (by
        rw [CellShape.other_X]
        exact (hasTriple_iff_winStates cells CellShape.O).mpr ⟨co, hoo⟩)
    · exact ho (by
        rw [CellShape.other_O]
        exact (hasTriple_iff_winStates cells CellShape.X).mpr ⟨cx, hx⟩)
  rw [if_neg hlen]
  cases hL : uniqueBy [] (winStates cells) with
  | nil => rw [hL] at hc0; simp at hc0
  | cons p t =>
    have ht : t = [] := by
      rw [hL] at hlen
      simp only [List.length_cons, not_lt] at hlen
      exact List.length_eq_zero.mp (by omega)
    subst ht
    rw [hL] at hc0
    simp only [List.mem_singleton] at hc0
    subst hc0
    have hpWS : (s, c0) ∈ winStates cells :=
      uniqueBy_subset _ [] _ (hL ▸ List.mem_cons_self _ _)
    rw [mem_winStates] at hpWS
    exact ⟨c0, rfl, hpWS.1, hpWS.2⟩

theorem get_winner_noWinnerYet_not_full (cells : Grid)
    (h : get_winner cells = .err .NoWinnerYet) : ¬ is_board_full cells := by
  unfold get_winner at h
  by_cases h1 : 1 < (uniqueBy [] (winStates cells)).length
  · rw [if_pos h1] at h; simp at h
  · rw [if_neg h1] at h
    cases hL : (uniqueBy [] (winStates cells)).head? with
    | none =>
      rw [hL] at h
      by_cases hf : is_board_full cells
      · rw [if_pos hf] at h; simp at h
      · exact hf
    | some p => rw [hL] at h; simp at h

end Shared

namespace NormalBoard

theorem board_get_winner_noWinnerYet_not_full (b : Board)
    (h : get_winner b = .err .NoWinnerYet) : ¬ Shared.is_board_full b.cells := by
  unfold get_winner at h
  by_cases h1 : 1 < (Shared.winStates b.cells).length
  · rw [if_pos h1] at h; simp at h
  · rw [if_neg h1] at h
    cases hL : (Shared.winStates b.cells).head? with
    | none =>
      rw [hL] at h
      by_cases hf : Shared.is_board_full b.cells
      · rw [if_pos hf] at h; simp at h
      · exact hf
    | some p => rw [hL] at h; simp at h

theorem empty_cells_ne_nil_of_not_full (b : Board)
    (h : ¬ Shared.is_board_full b.cells) : empty_cells b ≠ [] := by
  intro hnil
  apply h
  rw [empty_cells, List.filter_eq_nil_iff] at hnil
  have hsome : ∀ x y : Fin 3, (b.cells x y).isSome := by
    intro x y
    have hmem : ((x.val, y.val) : Coord) ∈ allCoords := by
      fin_cases x <;> fin_cases y <;> simp [allCoords]
    have hx := hnil (x.val, y.val) hmem
    rw [show Shared.get_cell b.cells (x.val, y.val) = b.cells x y by
      simp [Shared.get_cell, x.isLt, y.isLt]] at hx
    cases hcell : b.cells x y with
    | none => exact absurd (by simp [hcell]) hx
    | some s => simp
  unfold Shared.is_board_full Shared.cellsList
  simp [List.countP_cons, hsome 0 0, hsome 0 1, hsome 0 2, hsome 1 0, hsome 1 1,
    hsome 1 2, hsome 2 0, hsome 2 1, hsome 2 2]

end NormalBoard

namespace NormalBoard

theorem foldl_max_mem (xs : List Int) : ∀ x : Int, xs.foldl max x ∈ x :: xs := by
  induction xs with
  | nil => intro x; simp
  | cons y ys ih =>
    intro x
    simp only [List.foldl_cons]
    rcases max_choice x y with hm | hm
    · rw [hm]
      rcases List.mem_cons.mp (ih x) with h1 | h1 <;> simp [h1]
    · rw [hm]
      rcases List.mem_cons.mp (ih y) with h1 | h1 <;> simp [h1]

theorem foldl_min_mem (xs : List Int) : ∀ x : Int, xs.foldl min x ∈ x :: xs := by
  induction xs with
  | nil => intro x; simp
  | cons y ys ih =>
    intro x
    simp only [List.foldl_cons]
    rcases min_choice x y with hm | hm
    · rw [hm]
      rcases List.mem_cons.mp (ih x) with h1 | h1 <;> simp [h1]
    · rw [hm]
      rcases List.mem_cons.mp (ih y) with h1 | h1 <;> simp [h1]

theorem listMax_mem {l : List Int} {m : Int} (h : listMax l = some m) : m ∈ l := by
  cases l with
  | nil => simp [listMax] at h
  | cons x xs =>
    simp only [listMax, Option.some.injEq] at h
    exact h ▸ foldl_max_mem xs x

theorem listMin_mem {l : List Int} {m : Int} (h : listMin l = some m) : m ∈ l := by
  cases l with
  | nil => simp [listMin] at h
  | cons x xs =>
    simp only [listMin, Option.some.injEq] at h
    exact h ▸ foldl_min_mem xs x

theorem map_congruence {α β : Type} (l : List α) (f g : α → β)
    (h : ∀ a ∈ l, f a = g a) : l.map f = l.map g := by
  induction l with
  | nil => rfl
  | cons x xs ih =>
    simp only [List.map_cons, h x (List.mem_cons_self x xs)]
    rw [ih fun a ha => h a (List.mem_cons_of_mem _ ha)]

theorem get_cell_setCell (g : Grid) (c d : Coord) (s : CellShape)
    (hd : d.1 < 3 ∧ d.2 < 3) :
    Shared.get_cell (setCell g c s) d = if d = c then some s else Shared.get_cell g d := by
  unfold setCell Shared.get_cell
  rw [dif_pos hd]
  split_ifs <;> simp_all [Prod.ext_iff]

theorem allCoords_bounds : ∀ c ∈ allCoords, c.1 < 3 ∧ c.2 < 3 := by decide

theorem mem_empty_cells {b : Board} {c : Coord} :
    c ∈ empty_cells b ↔ c ∈ allCoords ∧ Shared.get_cell b.cells c = none := by
  unfold empty_cells
  rw [List.mem_filter]
  simp [Option.isNone_iff_eq_none]

theorem length_empty_cells_le (b : Board) : (empty_cells b).length ≤ 9 := by
  have h := List.length_filter_le
    (fun c => (Shared.get_cell b.cells c).isNone) allCoords
  simpa [empty_cells] using h

theorem length_empty_cells_setCell_lt (b : Board) (c : Coord) (s : CellShape)
    (hc : c ∈ empty_cells b) :
    (empty_cells ⟨setCell b.cells c s, b.ai_shape⟩).length < (empty_cells b).length := by
  obtain ⟨hcA, hcN⟩ := mem_empty_cells.mp hc
  have hcb := allCoords_bounds c hcA
  have hq : ∀ d ∈ allCoords,
      (Shared.get_cell (setCell b.cells c s) d).isNone = true →
      (Shared.get_cell b.cells d).isNone = true := by
    intro d hd hqd
    rw [get_cell_setCell b.cells c d s (allCoords_bounds d hd)] at hqd
    by_cases hdc : d = c
    · rw [if_pos hdc] at hqd; simp at hqd
    · rwa [if_neg hdc] at hqd
  show (allCoords.filter _).length < (allCoords.filter _).length
  have heq : allCoords.filter (fun d => (Shared.get_cell (setCell b.cells c s) d).isNone) =
      (allCoords.filter (fun d => (Shared.get_cell b.cells d).isNone)).filter
        (fun d => (Shared.get_cell (setCell b.cells c s) d).isNone) := by
    rw [List.filter_filter]
    apply List.filter_congr
    intro d hd
    cases hqd : (Shared.get_cell (setCell b.cells c s) d).isNone with
    | false => simp
    | true => simp [hq d hd hqd]
  rw [heq]
  apply List.length_filter_lt_length_iff_exists.mpr
  refine ⟨c, List.mem_filter.mpr ⟨hcA, by simp [hcN]⟩, ?_⟩
  rw [get_cell_setCell b.cells c c s hcb, if_pos rfl]
  simp

theorem evalFuel_congr : ∀ (f g : Nat) (b : Board) (s : CellShape),
    (empty_cells b).length < f → (empty_cells b).length < g →
    evalFuel f b s = evalFuel g b s := by
  intro f
  induction f with
  | zero => intro g b s hf _; exact absurd hf (Nat.not_lt_zero _)
  | succ f ih =>
    intro g b s hf hg
    cases g with
    | zero => exact absurd hg (Nat.not_lt_zero _)
    | succ g' =>
      simp only [evalFuel]
      cases hw : get_winner b with
      | ok p => rfl
      | err e =>
        cases e with
        | MultipleWinners => rfl
        | BoardFullNoWinner => rfl
        | NoWinnerYet =>
          have hmap : ∀ c ∈ empty_cells b,
              Decay.decayF32 (evalFuel f ⟨setCell b.cells c s, b.ai_shape⟩ s.other) =
              Decay.decayF32 (evalFuel g' ⟨setCell b.cells c s, b.ai_shape⟩ s.other) := by
            intro c hc
            have hlt := length_empty_cells_setCell_lt b c s hc
            rw [ih g' _ _ (by omega) (by omega)]
          rw [map_congruence _ _ _ hmap]

theorem getD_max_bound {l : List Int} (h : ∀ m ∈ l, -100 ≤ m ∧ m ≤ 100) :
    -100 ≤ (listMax l).getD 0 ∧ (listMax l).getD 0 ≤ 100 := by
  cases hmx : listMax l with
  | none => norm_num
  | some m => simpa using h m (listMax_mem hmx)

theorem getD_min_bound {l : List Int} (h : ∀ m ∈ l, -100 ≤ m ∧ m ≤ 100) :
    -100 ≤ (listMin l).getD 0 ∧ (listMin l).getD 0 ≤ 100 := by
  cases hmx : listMin l with
  | none => norm_num
  | some m => simpa using h m (listMin_mem hmx)

theorem evalFuel_range : ∀ (f : Nat) (b : Board) (s : CellShape),
    -100 ≤ evalFuel f b s ∧ evalFuel f b s ≤ 100 := by
  intro f
  induction f with
  | zero => intro b s; norm_num [evalFuel]
  | succ f ih =>
    intro b s
    simp only [evalFuel]
    cases hw : get_winner b with
    | ok p =>
      obtain ⟨x, l⟩ := p
      cases x <;> cases hai : b.ai_shape <;> simp [CellShape.other]
    | err e =>
      cases e with
      | MultipleWinners => norm_num
      | BoardFullNoWinner => norm_num
      | NoWinnerYet =>
        have hel : ∀ m ∈ (empty_cells b).map (fun c =>
            Decay.decayF32 (evalFuel f ⟨setCell b.cells c s, b.ai_shape⟩ s.other)),
            -100 ≤ m ∧ m ≤ 100 := by
          intro m hm
          rw [List.mem_map] at hm
          obtain ⟨c, hc, rfl⟩ := hm
          obtain ⟨hl, hr⟩ := ih ⟨setCell b.cells c s, b.ai_shape⟩ s.other
          obtain ⟨-, h90l, h90r⟩ := Decay.decayF32_eq_truncation _ hl hr
          omega
        split_ifs
        · exact getD_max_bound hel
        · exact getD_min_bound hel

theorem foldl_max_neg (xs : List Int) :
    ∀ x : Int, ((xs.map fun z => -z).foldl max (-x)) = -(xs.foldl min x) := by
  induction xs with
  | nil => intro x; simp
  | cons y ys ih =>
    intro x
    simp only [List.map_cons, List.foldl_cons]
    rw [max_neg_neg, ih]

theorem foldl_min_neg (xs : List Int) :
    ∀ x : Int, ((xs.map fun z => -z).foldl min (-x)) = -(xs.foldl max x) := by
  induction xs with
  | nil => intro x; simp
  | cons y ys ih =>
    intro x
    simp only [List.map_cons, List.foldl_cons]
    rw [min_neg_neg, ih]

theorem listMax_map_neg (l : List Int) :
    listMax (l.map fun z => -z) = (listMin l).map fun z => -z := by
  cases l with
  | nil => rfl
  | cons x xs => simp [listMax, listMin, foldl_max_neg]

theorem listMin_map_neg (l : List Int) :
    listMin (l.map fun z => -z) = (listMax l).map fun z => -z := by
  cases l with
  | nil => rfl
  | cons x xs => simp [listMax, listMin, foldl_min_neg]

theorem getD_neg (o : Option Int) : ((o.map fun z => -z).getD 0) = -(o.getD 0) := by
  cases o <;> simp

theorem decayF32_neg (c : Int) (h1 : -100 ≤ c) (h2 : c ≤ 100) :
    Decay.decayF32 (-c) = -(Decay.decayF32 c) := by
  obtain ⟨e1, -, -⟩ := Decay.decayF32_eq_truncation c h1 h2
  obtain ⟨e2, -, -⟩ := Decay.decayF32_eq_truncation (-c) (by omega) (by omega)
  rw [e1, e2, show 9 * -c = -(9 * c) by ring, Int.neg_tdiv]

theorem evalFuel_swap (f : Nat) : ∀ (cells : Grid) (ai s : CellShape),
    evalFuel f ⟨cells, ai.other⟩ s = -(evalFuel f ⟨cells, ai⟩ s) := by
  induction f with
  | zero => intro cells ai s; simp [evalFuel]
  | succ f ih =>
    intro cells ai s
    simp only [evalFuel]
    have hgw : get_winner ⟨cells, ai.other⟩ = get_winner ⟨cells, ai⟩ := rfl
    rw [hgw]
    cases hw : get_winner (⟨cells, ai⟩ : Board) with
    | ok p =>
      obtain ⟨x, l⟩ := p
      cases ai <;> cases x <;> simp [CellShape.other]
    | err e =>
      cases e with
      | MultipleWinners => norm_num
      | BoardFullNoWinner => norm_num
      | NoWinnerYet =>
        have hempty : empty_cells ⟨cells, ai.other⟩ = empty_cells ⟨cells, ai⟩ := rfl
        rw [hempty]
        have hmap : ((empty_cells ⟨cells, ai⟩).map fun c =>
              Decay.decayF32 (evalFuel f ⟨setCell cells c s, ai.other⟩ s.other)) =
            ((empty_cells ⟨cells, ai⟩).map fun c =>
              Decay.decayF32 (evalFuel f ⟨setCell cells c s, ai⟩ s.other)).map
              fun z => -z := by
          rw [List.map_map]
          apply map_congruence
          intro c hc
          rw [ih (setCell cells c s) ai s.other]
          obtain ⟨hl, hr⟩ := evalFuel_range f ⟨setCell cells c s, ai⟩ s.other
          exact decayF32_neg _ hl hr
        rw [hmap]
        cases ai <;> cases s <;>
          simp [CellShape.other, listMax_map_neg, listMin_map_neg, getD_neg,
            -List.map_map]

theorem evaluate_position_unfold (b : Board) (s : CellShape) :
    evaluate_position b s = evalFuel (9 + 1) b s := rfl

end NormalBoard

/-- Claim C3: for every board whose `get_winner` outcome is `NoWinnerYet` and every
`shape_to_play`, `evaluate_position` equals the maximum (if `shape_to_play` is the
engine's shape, else the minimum) over all empty cells of the decayed score of the
child position obtained by placing `shape_to_play` there and recursing with the
complementary shape, where the decay maps a child score `c` to `0.9 × c` truncated
toward zero (`Int.tdiv (9 * c) 10`), not rounded to nearest; and for decided boards
the score is `+100` for the engine's shape, `-100` for the opponent, and `0` for
`MultipleWinners` or a full drawn board. -/
theorem C3_evaluate_position_minimax_decay (b : NormalBoard.Board) (s : CellShape) :
    (∀ x l, NormalBoard.get_winner b = .ok (x, l) →
      NormalBoard.evaluate_position b s = if x = b.ai_shape then 100 else -100) ∧
    (NormalBoard.get_winner b = .err .MultipleWinners →
      NormalBoard.evaluate_position b s = 0) ∧
    (NormalBoard.get_winner b = .err .BoardFullNoWinner →
      NormalBoard.evaluate_position b s = 0) ∧
    (NormalBoard.get_winner b = .err .NoWinnerYet →
      NormalBoard.evaluate_position b s =
        if s = b.ai_shape
        then (NormalBoard.listMax ((NormalBoard.empty_cells b).map fun c =>
          Int.tdiv (9 * NormalBoard.evaluate_position
            ⟨NormalBoard.setCell b.cells c s, b.ai_shape⟩ s.other) 10)).getD 0
        else (NormalBoard.listMin ((NormalBoard.empty_cells b).map fun c =>
          Int.tdiv (9 * NormalBoard.evaluate_position
            ⟨NormalBoard.setCell b.cells c s, b.ai_shape⟩ s.other) 10)).getD 0) := by
  refine ⟨?_, ?_, ?_, ?_⟩
  · intro x l hw
    rw [NormalBoard.evaluate_position_unfold, NormalBoard.evalFuel, hw]
    rcases CellShape.eq_or_eq_other b.ai_shape x with rfl | rfl
    · simp
    · simp [CellShape.other_ne]
  · intro hw
    rw [NormalBoard.evaluate_position_unfold, NormalBoard.evalFuel, hw]
  · intro hw
    rw [NormalBoard.evaluate_position_unfold, NormalBoard.evalFuel, hw]
  · intro hw
    rw [NormalBoard.evaluate_position_unfold, NormalBoard.evalFuel, hw]
    have hstep : ∀ c ∈ NormalBoard.empty_cells b,
        Decay.decayF32 (NormalBoard.evalFuel 9
          ⟨NormalBoard.setCell b.cells c s, b.ai_shape⟩ s.other) =
        Int.tdiv (9 * NormalBoard.evaluate_position
          ⟨NormalBoard.setCell b.cells c s, b.ai_shape⟩ s.other) 10 := by
      intro c hc
      have hlt := NormalBoard.length_empty_cells_setCell_lt b c s hc
      have hle := NormalBoard.length_empty_cells_le b
      have h9 : NormalBoard.evalFuel 9 ⟨NormalBoard.setCell b.cells c s, b.ai_shape⟩ s.other =
          NormalBoard.evalFuel 10 ⟨NormalBoard.setCell b.cells c s, b.ai_shape⟩ s.other :=
        NormalBoard.evalFuel_congr 9 10 _ _ (by omega) (by omega)
      rw [h9]
      obtain ⟨hl, hr⟩ := NormalBoard.evalFuel_range 10
        ⟨NormalBoard.setCell b.cells c s, b.ai_shape⟩ s.other
      obtain ⟨heq, -, -⟩ := Decay.decayF32_eq_truncation _ hl hr
      exact heq
    rw [NormalBoard.map_congruence _ _ _ hstep]

/-- Claim C6: relabelling which shape is the engine's (replacing `ai_shape` by its
complement, leaving the cells unchanged) negates the minimax score of every
position, for every shape to play. -/
theorem C6_evaluate_position_negation_symmetry (cells : Grid) (ai s : CellShape) :
    NormalBoard.evaluate_position ⟨cells, ai.other⟩ s =
      -(NormalBoard.evaluate_position ⟨cells, ai⟩ s) :=
  NormalBoard.evalFuel_swap 10 cells ai s

/-- Claim C7: whenever `get_winner` (either the normal board's own copy or the
shared function) answers `NoWinnerYet`, the board has at least one empty cell, so
the `.expect("We should never iterate over zero empty cells")` branch inside
`evaluate_position` is unreachable. -/
theorem C7_no_winner_yet_nonempty (b : NormalBoard.Board) :
    (NormalBoard.get_winner b = .err .NoWinnerYet → NormalBoard.empty_cells b ≠ []) ∧
    (Shared.get_winner b.cells = .err .NoWinnerYet → NormalBoard.empty_cells b ≠ []) := by
  constructor
  · intro h
    exact NormalBoard.empty_cells_ne_nil_of_not_full b
      (NormalBoard.board_get_winner_noWinnerYet_not_full b h)
  · intro h
    exact NormalBoard.empty_cells_ne_nil_of_not_full b
      (Shared.get_winner_noWinnerYet_not_full b.cells h)

/-- The almost-full test fixture from `src/board.rs` (`X O X; X X O; O _ O`),
with one empty cell at `(1, 2)`. -/
def c3cells : Grid := fun x y =>
  match x.val, y.val with
  | 0, 0 => some CellShape.X | 1, 0 => some CellShape.O | 2, 0 => some CellShape.X
  | 0, 1 => some CellShape.X | 1, 1 => some CellShape.X | 2, 1 => some CellShape.O
  | 0, 2 => some CellShape.O | 1, 2 => none             | 2, 2 => some CellShape.O
  | _, _ => none

theorem C3_witness :
    NormalBoard.get_winner ⟨c3cells, CellShape.O⟩ = .err .NoWinnerYet ∧
    NormalBoard.evaluate_position ⟨c3cells, CellShape.O⟩ CellShape.O =
      (NormalBoard.listMax ((NormalBoard.empty_cells ⟨c3cells, CellShape.O⟩).map fun c =>
        Int.tdiv (9 * NormalBoard.evaluate_position
          ⟨NormalBoard.setCell c3cells c CellShape.O, CellShape.O⟩ CellShape.O.other)
          10)).getD 0 := by
  refine ⟨by decide, ?_⟩
  have h := (C3_evaluate_position_minimax_decay
    ⟨c3cells, CellShape.O⟩ CellShape.O).2.2.2 (by decide)
  rwa [if_pos rfl] at h

theorem C7_witness :
    NormalBoard.get_winner ⟨(fun _ _ => none : Grid), CellShape.O⟩ = .err .NoWinnerYet ∧
    NormalBoard.empty_cells ⟨(fun _ _ => none : Grid), CellShape.O⟩ ≠ [] :=
  ⟨by decide,
   (C7_no_winner_yet_nonempty ⟨(fun _ _ => none : Grid), CellShape.O⟩).1 (by decide)⟩

/-- A grid on which X alone completes two canonical triples (column 0 and row 0)
while O completes none. -/
def c1cells : Grid := fun x y =>
  match x.val, y.val with
  | 0, _ => some CellShape.X
  | 1, 0 => some CellShape.X
  | 2, 0 => some CellShape.X
  | _, _ => none

/-- Claim C1, counterexample: on a grid where the single shape X completes two
triples and O completes none, `Board::get_winner` from `src/board.rs` (one of the
two functions the claim is about) answers `MultipleWinners` instead of a win for
X — the claim fails as stated for that copy of the function. -/
theorem C1_board_get_winner_counterexample :
    Shared.HasTriple c1cells CellShape.X ∧ ¬ Shared.HasTriple c1cells CellShape.O ∧
    NormalBoard.get_winner ⟨c1cells, CellShape.O⟩ = .err .MultipleWinners := by
  decide

/-- Claim C1 (amended): the shared `get_winner` of `src/shared/board.rs` behaves
as claimed — it answers `MultipleWinners` exactly when both distinct shapes have a
complete triple, and when a single shape completes one or more triples (and the
other none) it reports a win for that shape together with one of its satisfied
lines.  (`Board::get_winner` in `src/board.rs` lacks the `unique_by`
deduplication and instead reports `MultipleWinners` whenever more than one
winning triplet exists, even for a single shape.) -/
theorem C1_shared_get_winner_dedup_amended (cells : Grid) :
    (Shared.get_winner cells = .err .MultipleWinners ↔
      Shared.HasTriple cells CellShape.X ∧ Shared.HasTriple cells CellShape.O) ∧
    (∀ s, Shared.HasTriple cells s → ¬ Shared.HasTriple cells s.other →
      ∃ l, Shared.get_winner cells = .ok (s, l) ∧
        l ∈ Shared.tripletCoords ∧ Shared.LineWin cells l s) :=
  ⟨Shared.get_winner_multiple_iff cells,
   fun s hs ho => Shared.get_winner_single cells s hs ho⟩

theorem C1_witness :
    Shared.HasTriple c1cells CellShape.X ∧
    ¬ Shared.HasTriple c1cells CellShape.X.other ∧
    ∃ l, Shared.get_winner c1cells = .ok (CellShape.X, l) ∧
      l ∈ Shared.tripletCoords ∧ Shared.LineWin c1cells l CellShape.X :=
  ⟨by decide, by decide,
   (C1_shared_get_winner_dedup_amended c1cells).2 CellShape.X (by decide) (by decide)⟩

/-- Claim C10: the ultimate helper computes the hold-back as a saturating
subtraction (zero when the computation already exceeded 750 ms), but the normal
helper (`send_move_after_delay`) subtracts with plain `Duration` subtraction,
which panics ("overflow when subtracting durations") as soon as the move
computation takes longer than 200 ms — the worker dies and the move is never
delivered, contradicting the claimed floor-at-zero behaviour.  Evaluations: at
one nanosecond past the 200 ms budget the normal helper has no result (panic);
within budget it sleeps the remainder; the ultimate helper is floored at zero
past its 750 ms budget. -/
theorem C10_delay_computation :
    AppDelay.normal_remaining (AppDelay.normalDelay + 1) = none ∧
    AppDelay.normal_remaining 150000000 = some 50000000 ∧
    AppDelay.ultimate_remaining (AppDelay.ultimateDelay + 1) = 0 ∧
    AppDelay.ultimate_remaining 500000000 = 250000000 := by
  refine ⟨?_, ?_, ?_, ?_⟩ <;> decide

namespace Ultimate

theorem local_get_winner_cases (lb : LocalBoard) :
    lb.get_winner.2.cells = lb.cells ∧
    LocalBoard.get_winner lb.get_winner.2 = (lb.get_winner.1, lb.get_winner.2) := by
  cases hw : lb.winner with
  | some w => simp [LocalBoard.get_winner, hw]
  | none =>
    cases hs : Shared.get_winner lb.cells with
    | ok w => simp [LocalBoard.get_winner, hw, hs]
    | err e => simp [LocalBoard.get_winner, hw, hs]

theorem global_get_winner_snd (gb : GlobalBoard) :
    gb.get_winner.2 = gb ∨ gb.get_winner.2 = { gb with next_local_board := none } := by
  simp only [GlobalBoard.get_winner]
  split
  · right; rfl
  · left; rfl

end Ultimate

/-- Claim C9: `GlobalBoard::get_winner` never modifies the local boards (the
local winners are computed on copies); it clears `next_local_board` exactly on an
`Ok` answer and leaves it unchanged on any `WinnerError`.  `LocalBoard::get_winner`
never modifies the cells, writing only the private winner cache, and calling it
again on the resulting board returns the same answer and the same board. -/
theorem C9_get_winner_frame :
    (∀ lb : Ultimate.LocalBoard,
      lb.get_winner.2.cells = lb.cells ∧
      Ultimate.LocalBoard.get_winner lb.get_winner.2 = (lb.get_winner.1, lb.get_winner.2)) ∧
    (∀ gb : Ultimate.GlobalBoard,
      gb.get_winner.2.local_boards = gb.local_boards ∧
      (∀ w, gb.get_winner.1 = .ok w → gb.get_winner.2.next_local_board = none) ∧
      (∀ e, gb.get_winner.1 = .err e →
        gb.get_winner.2.next_local_board = gb.next_local_board)) := by
  constructor
  · exact Ultimate.local_get_winner_cases
  · intro gb
    refine ⟨?_, ?_, ?_⟩
    · rcases Ultimate.global_get_winner_snd gb with h | h <;> rw [h]
    · intro w hw
      simp only [Ultimate.GlobalBoard.get_winner] at hw ⊢
      split at hw
      · rfl
      · simp at hw
    · intro e he
      simp only [Ultimate.GlobalBoard.get_winner] at he ⊢
      split at he
      · simp at he
      · rfl

/-- Claim C4: `make_move` validates in the fixed order out-of-bounds, wrong local
board, occupied cell (first failure wins), and on every error result the board is
returned completely unchanged. -/
theorem C4_make_move_error_order_and_frame (gb : Ultimate.GlobalBoard)
    (x y lx ly : Nat) (s : CellShape) :
    ((2 < x ∨ 2 < y ∨ 2 < lx ∨ 2 < ly) →
      Ultimate.make_move gb (x, y, (lx, ly)) s = (.err .OutOfBounds, gb)) ∧
    (¬(2 < x ∨ 2 < y ∨ 2 < lx ∨ 2 < ly) →
      ∀ nc, gb.next_local_board = some nc → nc ≠ (x, y) →
      Ultimate.make_move gb (x, y, (lx, ly)) s = (.err .WrongLocalBoard, gb)) ∧
    (¬(2 < x ∨ 2 < y ∨ 2 < lx ∨ 2 < ly) →
      Ultimate.wrongBoard gb.next_local_board x y = false →
      Ultimate.gcell gb (x, y, (lx, ly)) ≠ none →
      Ultimate.make_move gb (x, y, (lx, ly)) s = (.err .CellAlreadyFull, gb)) ∧
    (∀ e gb', Ultimate.make_move gb (x, y, (lx, ly)) s = (.err e, gb') → gb' = gb) := by
  refine ⟨?_, ?_, ?_, ?_⟩
  · intro h
    simp only [Ultimate.make_move, dif_pos h]
  · intro h nc hnc hne
    simp only [Ultimate.make_move, dif_neg h]
    rw [show Ultimate.wrongBoard gb.next_local_board x y = true by
      rw [hnc]; simp [Ultimate.wrongBoard, hne]]
    simp
  · intro h hwb hocc
    simp only [Ultimate.make_move, dif_neg h]
    rw [hwb]
    simp only [Bool.false_eq_true, if_false]
    have hx : x < 3 := by omega
    have hy : y < 3 := by omega
    have hlx : lx < 3 := by omega
    have hly : ly < 3 := by omega
    have hgc : Ultimate.gcell gb (x, y, (lx, ly)) =
        (gb.local_boards ⟨x, hx⟩ ⟨y, hy⟩).cells ⟨lx, hlx⟩ ⟨ly, hly⟩ := by
      unfold Ultimate.gcell
      rw [dif_pos ⟨hx, hy, hlx, hly⟩]
    rw [hgc] at hocc
    cases hcell : (gb.local_boards ⟨x, hx⟩ ⟨y, hy⟩).cells ⟨lx, hlx⟩ ⟨ly, hly⟩ with
    | none => exact absurd hcell hocc
    | some v => rfl
  · intro e gb' heq
    simp only [Ultimate.make_move] at heq
    split at heq
    · exact (Prod.ext_iff.mp heq).2.symm
    · split at heq
      · exact (Prod.ext_iff.mp heq).2.symm
      · split at heq
        · exact (Prod.ext_iff.mp heq).2.symm
        · exact absurd (Prod.ext_iff.mp heq).1 (by simp)

namespace Ultimate

theorem make_move_ok_iff (gb : GlobalBoard) (x y lx ly : Nat) (s : CellShape) :
    (make_move gb (x, y, (lx, ly)) s).1 = .ok () ↔
      ¬(2 < x ∨ 2 < y ∨ 2 < lx ∨ 2 < ly) ∧
      wrongBoard gb.next_local_board x y = false ∧
      gcell gb (x, y, (lx, ly)) = none := by
  by_cases hb : 2 < x ∨ 2 < y ∨ 2 < lx ∨ 2 < ly
  · simp only [make_move, dif_pos hb]
    simp [hb]
  · simp only [make_move, dif_neg hb]
    have hx : x < 3 := by omega
    have hy : y < 3 := by omega
    have hlx : lx < 3 := by omega
    have hly : ly < 3 := by omega
    have hgc : gcell gb (x, y, (lx, ly)) =
        (gb.local_boards ⟨x, hx⟩ ⟨y, hy⟩).cells ⟨lx, hlx⟩ ⟨ly, hly⟩ := by
      unfold gcell
      rw [dif_pos ⟨hx, hy, hlx, hly⟩]
    cases hwb : wrongBoard gb.next_local_board x y with
    | true => simp [hwb]
    | false =>
      simp only [hwb, Bool.false_eq_true, if_false]
      rw [hgc]
      cases hcell : (gb.local_boards ⟨x, hx⟩ ⟨y, hy⟩).cells ⟨lx, hlx⟩ ⟨ly, hly⟩ with
      | some v => simp [hb, hcell]
      | none => simp [hb, hcell]

theorem movedBoard_next (gb : GlobalBoard) (fx fy flx fly : Fin 3) (s : CellShape) :
    (movedBoard gb fx fy flx fly s).next_local_board =
      if Shared.is_board_full
          ((movedBoard gb fx fy flx fly s).local_boards flx fly).cells
      then none else some (flx.val, fly.val) := rfl

theorem make_move_ok_eq (gb : GlobalBoard) (x y lx ly : Nat) (s : CellShape)
    (hx : x < 3) (hy : y < 3) (hlx : lx < 3) (hly : ly < 3)
    (hwb : wrongBoard gb.next_local_board x y = false)
    (hcell : (gb.local_boards ⟨x, hx⟩ ⟨y, hy⟩).cells ⟨lx, hlx⟩ ⟨ly, hly⟩ = none) :
    make_move gb (x, y, (lx, ly)) s =
      (.ok (), movedBoard gb ⟨x, hx⟩ ⟨y, hy⟩ ⟨lx, hlx⟩ ⟨ly, hly⟩ s) := by
  have hb : ¬(2 < x ∨ 2 < y ∨ 2 < lx ∨ 2 < ly) := by omega
  simp only [make_move, dif_neg hb, hwb, Bool.false_eq_true, if_false]
  cases hcell2 : (gb.local_boards ⟨x, hx⟩ ⟨y, hy⟩).cells ⟨lx, hlx⟩ ⟨ly, hly⟩ with
  | some v => exact absurd (hcell2.symm.trans hcell) (by simp)
  | none => rfl

end Ultimate

/-- Claim C2 (amended): in every board reachable from `GlobalBoard::new` by
successful `make_move` calls and `get_winner` queries, a set `next_local_board`
always points, in bounds, at a local board that is *not full* — but that local
board may already contain a completed triple: `make_move` only tests fullness
when deciding whether to clear the pointer, never whether the target board has a
winner (see the counterexample). -/
theorem C2_next_local_board_not_full_amended :
    ∀ gb : Ultimate.GlobalBoard, Ultimate.Reachable gb →
      ∀ a b : Nat, gb.next_local_board = some (a, b) →
        a < 3 ∧ b < 3 ∧ ¬ Shared.is_board_full (Ultimate.localAtN gb a b).cells := by
  intro gb h
  induction h with
  | new s => intro a b hn; simp [Ultimate.GlobalBoard.new] at hn
  | winner hr ih =>
    intro a b hn
    rcases Ultimate.global_get_winner_snd _ with h2 | h2
    · rw [h2] at hn ⊢
      exact ih a b hn
    · rw [h2] at hn
      simp at hn
  | @move gb0 c s hr hok ih =>
    rcases c with ⟨x, y, lx, ly⟩
    intro a b hn
    obtain ⟨hb, hwb, hgc⟩ := (Ultimate.make_move_ok_iff gb0 x y lx ly s).mp hok
    have hx : x < 3 := by omega
    have hy : y < 3 := by omega
    have hlx : lx < 3 := by omega
    have hly : ly < 3 := by omega
    have hcell : (gb0.local_boards ⟨x, hx⟩ ⟨y, hy⟩).cells ⟨lx, hlx⟩ ⟨ly, hly⟩ = none := by
      unfold Ultimate.gcell at hgc
      rw [dif_pos ⟨hx, hy, hlx, hly⟩] at hgc
      exact hgc
    rw [Ultimate.make_move_ok_eq gb0 x y lx ly s hx hy hlx hly hwb hcell] at hn ⊢
    rw [show ((.ok (), Ultimate.movedBoard gb0 ⟨x, hx⟩ ⟨y, hy⟩ ⟨lx, hlx⟩ ⟨ly, hly⟩ s) :
        RRes Ultimate.MoveError Unit × Ultimate.GlobalBoard).2.next_local_board =
        (Ultimate.movedBoard gb0 ⟨x, hx⟩ ⟨y, hy⟩ ⟨lx, hlx⟩ ⟨ly, hly⟩ s).next_local_board
        from rfl, Ultimate.movedBoard_next] at hn
    by_cases hfull : Shared.is_board_full
        ((Ultimate.movedBoard gb0 ⟨x, hx⟩ ⟨y, hy⟩ ⟨lx, hlx⟩ ⟨ly, hly⟩ s).local_boards
          ⟨lx, hlx⟩ ⟨ly, hly⟩).cells
    · rw [if_pos hfull] at hn
      simp at hn
    · rw [if_neg hfull] at hn
      have hab : lx = a ∧ ly = b := by simpa using hn
      obtain ⟨rfl, rfl⟩ := hab
      refine ⟨hlx, hly, ?_⟩
      have hloc : Ultimate.localAtN
          ((.ok (), Ultimate.movedBoard gb0 ⟨x, hx⟩ ⟨y, hy⟩ ⟨lx, hlx⟩ ⟨ly, hly⟩ s) :
            RRes Ultimate.MoveError Unit × Ultimate.GlobalBoard).2 lx ly =
          (Ultimate.movedBoard gb0 ⟨x, hx⟩ ⟨y, hy⟩ ⟨lx, hlx⟩ ⟨ly, hly⟩ s).local_boards
            ⟨lx, hlx⟩ ⟨ly, hly⟩ := by
        unfold Ultimate.localAtN
        rw [dif_pos ⟨hlx, hly⟩]
      rw [hloc]
      exact hfull

/-- One `make_move` step from the empty global board: X at cell (0,0) of local
board (0,0); the pointer is sent to local board (0,0). -/
def c2b1 : Ultimate.GlobalBoard :=
  (Ultimate.make_move (Ultimate.GlobalBoard.new CellShape.O) (0, 0, (0, 0)) CellShape.X).2

/-- Four further successful moves: X fills column 0 of local board (0,0)
(winning it), and the final move at cell (0,0) of local board (0,2) sends the
pointer back into the already-won local board (0,0). -/
def c2b2 : Ultimate.GlobalBoard :=
  (Ultimate.make_move c2b1 (0, 0, (0, 1)) CellShape.X).2

def c2b3 : Ultimate.GlobalBoard :=
  (Ultimate.make_move c2b2 (0, 1, (0, 0)) CellShape.X).2

def c2b4 : Ultimate.GlobalBoard :=
  (Ultimate.make_move c2b3 (0, 0, (0, 2)) CellShape.X).2

def c2b5 : Ultimate.GlobalBoard :=
  (Ultimate.make_move c2b4 (0, 2, (0, 0)) CellShape.X).2

/-- Claim C2, counterexample: after five successful moves from the empty board,
`next_local_board` points at local board (0,0) although shape X has a complete
triple there (column 0) — the claimed "no shape has a complete triple in the
pointed board" invariant is false on reachable boards. -/
theorem C2_next_local_board_won_counterexample :
    Ultimate.Reachable c2b5 ∧
    c2b5.next_local_board = some (0, 0) ∧
    Shared.HasTriple (Ultimate.localAtN c2b5 0 0).cells CellShape.X := by
  refine ⟨?_, by decide, by decide⟩
  exact Ultimate.Reachable.move _ _
    (Ultimate.Reachable.move _ _
      (Ultimate.Reachable.move _ _
        (Ultimate.Reachable.move _ _
          (Ultimate.Reachable.move _ _
            (Ultimate.Reachable.new CellShape.O) (by decide))
          (by decide))
        (by decide))
      (by decide))
    (by decide)

theorem C2_witness :
    (0 : Nat) < 3 ∧ (0 : Nat) < 3 ∧
    ¬ Shared.is_board_full (Ultimate.localAtN c2b1 0 0).cells :=
  C2_next_local_board_not_full_amended c2b1
    (Ultimate.Reachable.move _ _ (Ultimate.Reachable.new CellShape.O) (by decide))
    0 0 (by decide)

/-- A global board whose forced local board is (1, 1), with empty cells. -/
def c4wrong : Ultimate.GlobalBoard :=
  { local_boards := fun _ _ => Ultimate.LocalBoard.new, ai_shape := CellShape.O,
    next_local_board := some (1, 1) }

theorem C4_witness :
    Ultimate.make_move (Ultimate.GlobalBoard.new CellShape.O) (3, 0, (0, 0)) CellShape.X =
      (.err .OutOfBounds, Ultimate.GlobalBoard.new CellShape.O) ∧
    Ultimate.make_move c4wrong (0, 0, (0, 0)) CellShape.X =
      (.err .WrongLocalBoard, c4wrong) ∧
    Ultimate.make_move c2b1 (0, 0, (0, 0)) CellShape.O =
      (.err .CellAlreadyFull, c2b1) ∧
    Ultimate.GlobalBoard.new CellShape.O = Ultimate.GlobalBoard.new CellShape.O := by
  refine ⟨(C4_make_move_error_order_and_frame _ 3 0 0 0 CellShape.X).1 (by norm_num),
    (C4_make_move_error_order_and_frame _ 0 0 0 0 CellShape.X).2.1 (by norm_num)
      (1, 1) rfl (by decide),
    (C4_make_move_error_order_and_frame _ 0 0 0 0 CellShape.O).2.2.1 (by norm_num)
      (by decide) (by decide),
    (C4_make_move_error_order_and_frame _ 3 0 0 0 CellShape.X).2.2.2 .OutOfBounds _
      ((C4_make_move_error_order_and_frame _ 3 0 0 0 CellShape.X).1 (by norm_num))⟩

/-- A global board whose column 0 of local boards is won by X, so that the
global winner is decided. -/
def c9won : Ultimate.GlobalBoard :=
  { local_boards := fun x _ =>
      if x.val = 0 then
        { cells := fun i _ => if i.val = 0 then some CellShape.X else none,
          winner := none }
      else Ultimate.LocalBoard.new,
    ai_shape := CellShape.O, next_local_board := some (1, 1) }

theorem C9_witness :
    c2b1.get_winner.1 = .err .NoWinnerYet ∧
    c2b1.get_winner.2.next_local_board = c2b1.next_local_board ∧
    c9won.get_winner.2.next_local_board = none := by
  refine ⟨by decide, C9_get_winner_frame.2 c2b1 |>.2.2 .NoWinnerYet (by decide), ?_⟩
  exact C9_get_winner_frame.2 c9won |>.2.1
    (CellShape.X, ((0, 0), (0, 1), (0, 2))) (by decide)

namespace Ultimate

theorem mem_ALL_CELLS_bounds : ∀ c ∈ ALL_CELLS,
    c.1 < 3 ∧ c.2.1 < 3 ∧ c.2.2.1 < 3 ∧ c.2.2.2 < 3 := by decide

theorem bounds_mem_ALL_CELLS (x y lx ly : Nat)
    (hx : x < 3) (hy : y < 3) (hlx : lx < 3) (hly : ly < 3) :
    ((x, y, (lx, ly)) : GlobalCoord) ∈ ALL_CELLS := by
  interval_cases x <;> interval_cases y <;> interval_cases lx <;>
    interval_cases ly <;> decide

theorem mem_nineCells_iff (nx ny x y lx ly : Nat) :
    ((x, y, (lx, ly)) : GlobalCoord) ∈ nineCells nx ny ↔
      x = nx ∧ y = ny ∧ lx < 3 ∧ ly < 3 := by
  simp only [nineCells, List.mem_cons, List.not_mem_nil, or_false, Prod.mk.injEq]
  constructor
  · intro h
    omega
  · intro h
    omega

theorem legal_moves_none (gb : GlobalBoard) (hn : gb.next_local_board = none) :
    legal_moves gb = ALL_CELLS.filter (fun c => (gcell gb c).isNone) := by
  unfold legal_moves
  rw [hn]

theorem legal_moves_some (gb : GlobalBoard) (nx ny : Nat)
    (hn : gb.next_local_board = some (nx, ny)) :
    legal_moves gb = (nineCells nx ny).filter (fun c => (gcell gb c).isNone) := by
  unfold legal_moves
  rw [hn]

theorem legal_moves_mem_iff (gb : GlobalBoard) (x y lx ly : Nat)
    (hnb : gb.next_local_board = none ∨
      ∃ p : Coord, gb.next_local_board = some p ∧ p.1 < 3 ∧ p.2 < 3) :
    ((x, y, (lx, ly)) : GlobalCoord) ∈ legal_moves gb ↔
      ¬(2 < x ∨ 2 < y ∨ 2 < lx ∨ 2 < ly) ∧
      wrongBoard gb.next_local_board x y = false ∧
      gcell gb (x, y, (lx, ly)) = none := by
  rcases hnb with hn | ⟨⟨nx, ny⟩, hn, hnx, hny⟩
  · rw [legal_moves_none gb hn, List.mem_filter, hn]
    constructor
    · rintro ⟨hmem, hempty⟩
      have hb := mem_ALL_CELLS_bounds _ hmem
      refine ⟨by simp at hb ⊢; omega, rfl, by simpa using hempty⟩
    · rintro ⟨hb, -, hgc⟩
      exact ⟨bounds_mem_ALL_CELLS x y lx ly (by omega) (by omega) (by omega) (by omega),
        by simp [hgc]⟩
  · rw [legal_moves_some gb nx ny hn, List.mem_filter, mem_nineCells_iff, hn]
    constructor
    · rintro ⟨⟨rfl, rfl, hlx3, hly3⟩, hempty⟩
      refine ⟨by omega, ?_, by simpa using hempty⟩
      simp [wrongBoard]
    · rintro ⟨hb, hwb, hgc⟩
      have hxy : (nx, ny) = (x, y) := by
        by_contra hne
        simp [wrongBoard, hne] at hwb
      obtain ⟨rfl, rfl⟩ : nx = x ∧ ny = y := by simpa [Prod.ext_iff] using hxy
      exact ⟨⟨rfl, rfl, by omega, by omega⟩, by simp [hgc]⟩

end Ultimate

/-- Claim C8: for every global board whose `next_local_board` is `None` or an
in-bounds coordinate (as holds on all reachable boards — see
`C2_next_local_board_not_full_amended`), `make_move` succeeds exactly on the
elements of `legal_moves`; hence a move drawn from `legal_moves` can never
produce a `MoveError`, and the `expect("A legal move should never cause a
MoveError")` branches are unreachable. -/
theorem C8_make_move_ok_iff_legal (gb : Ultimate.GlobalBoard) (c : GlobalCoord)
    (s : CellShape)
    (hnb : gb.next_local_board = none ∨
      ∃ p : Coord, gb.next_local_board = some p ∧ p.1 < 3 ∧ p.2 < 3) :
    (Ultimate.make_move gb c s).1 = .ok () ↔ c ∈ Ultimate.legal_moves gb := by
  rcases c with ⟨x, y, lx, ly⟩
  rw [Ultimate.make_move_ok_iff, ← Ultimate.legal_moves_mem_iff gb x y lx ly hnb]

theorem C8_witness :
    ((0, 0, (0, 0)) : GlobalCoord) ∈
      Ultimate.legal_moves (Ultimate.GlobalBoard.new CellShape.O) :=
  (C8_make_move_ok_iff_legal (Ultimate.GlobalBoard.new CellShape.O) (0, 0, (0, 0))
    CellShape.X (Or.inl rfl)).mp (by decide)

/-- Claim C5: whenever some legal move immediately wins the global board for the
engine's shape, `generate_ai_move` returns such a move (the first one in
`legal_moves` order), without consulting the MCTS search at all — the
`mcts_result` argument, which abstracts the randomized `do_mcts(max_iterations)`
fall-back, is universally quantified, so the result holds in particular for
`max_iterations = 0`. -/
theorem C5_generate_ai_move_immediate_win (gb : Ultimate.GlobalBoard)
    (h : ∃ mv ∈ Ultimate.legal_moves gb, Ultimate.wins_after gb mv = true) :
    ∀ mcts_result, ∃ m, Ultimate.generate_ai_move gb mcts_result = some m ∧
      m ∈ Ultimate.legal_moves gb ∧ Ultimate.wins_after gb m = true := by
  intro mcts_result
  unfold Ultimate.generate_ai_move
  cases hf : (Ultimate.legal_moves gb).find? (Ultimate.wins_after gb) with
  | none =>
    exfalso
    obtain ⟨mv, hmem, hwin⟩ := h
    exact (List.find?_eq_none.mp hf mv hmem) hwin
  | some m =>
    exact ⟨m, rfl, List.mem_of_find?_eq_some hf, List.find?_some hf⟩

/-- A local board fully won by O in column 0. -/
def c5lbO : Ultimate.LocalBoard :=
  { cells := fun x _ => if x.val = 0 then some CellShape.O else none, winner := none }

/-- A local board where O holds cells (0,0) and (0,1) of column 0. -/
def c5lbPart : Ultimate.LocalBoard :=
  { cells := fun x y => if x.val = 0 ∧ y.val ≤ 1 then some CellShape.O else none,
    winner := none }

/-- A global board where the engine (O) wins outright by completing local board
(0, 2): local boards (0,0) and (0,1) are already O-won, giving O column 0 of the
global board. -/
def c5board : Ultimate.GlobalBoard :=
  { local_boards := fun x y =>
      if x.val = 0 ∧ y.val = 0 then c5lbO
      else if x.val = 0 ∧ y.val = 1 then c5lbO
      else if x.val = 0 ∧ y.val = 2 then c5lbPart
      else Ultimate.LocalBoard.new,
    ai_shape := CellShape.O, next_local_board := none }

theorem C5_witness :
    ∃ m, Ultimate.generate_ai_move c5board none = some m ∧
      m ∈ Ultimate.legal_moves c5board ∧ Ultimate.wins_after c5board m = true :=
  C5_generate_ai_move_immediate_win c5board
    ⟨(0, 2, (0, 2)), by decide, by decide⟩ none
